import Mathlib

/-!
Verification of the Pegasus lattice generator (`dwave_networkx/generators/pegasus.py`).

The generator is shallowly embedded: Python integer tuples become `ℕ × ℕ × ℕ × ℕ`,
the nested generator expressions that synthesize the three edge families become
nested list products / flat-maps in the same enumeration order, and the optional
`offsets_index` / `offset_lists` parameters with their conflict check become an
`Except`-valued resolution function.  The builder is parametric in the labeling
function `f`, mirroring the source's `c2i`, which is either the linear-index
formula (`coordinates=False`) or the identity on tuples (`coordinates=True`).

Python's unbounded integers are modelled by `ℕ`; the only subtraction occurring
in generated data is `w - (k < off1[kk])` in the cross-orientation family, and
the no-out-of-lattice theorem below proves (in `ℤ`) that it never goes below
zero on the generated ranges, so truncated subtraction agrees with integer
subtraction there.
-/

namespace PegasusSpec

/-- A Pegasus 4-tuple index `(u, w, k, z)`. -/
abbrev Tup : Type := ℕ × ℕ × ℕ × ℕ

/-- The eight predefined offset-table pairs (source lines 63-72). -/
def offsetTable : List (List ℕ × List ℕ) :=
  [([2, 2, 2, 2, 10, 10, 10, 10, 6, 6, 6, 6], [6, 6, 6, 6, 2, 2, 2, 2, 10, 10, 10, 10]),
   ([2, 2, 2, 2, 10, 10, 10, 10, 6, 6, 6, 6], [2, 2, 2, 2, 10, 10, 10, 10, 6, 6, 6, 6]),
   ([2, 2, 2, 2, 10, 10, 10, 10, 6, 6, 6, 6], [10, 10, 10, 10, 6, 6, 6, 6, 2, 2, 2, 2]),
   ([10, 10, 10, 10, 6, 6, 6, 6, 2, 2, 2, 2], [10, 10, 10, 10, 6, 6, 6, 6, 2, 2, 2, 2]),
   ([10, 10, 10, 10, 6, 6, 6, 6, 2, 2, 2, 2], [2, 2, 2, 2, 6, 6, 6, 6, 10, 10, 10, 10]),
   ([6, 6, 2, 2, 2, 2, 10, 10, 10, 10, 6, 6], [6, 6, 2, 2, 2, 2, 10, 10, 10, 10, 6, 6]),
   ([6, 6, 2, 2, 2, 2, 10, 10, 10, 10, 6, 6], [6, 6, 10, 10, 10, 10, 2, 2, 2, 2, 6, 6]),
   ([6, 6, 6, 6, 6, 6, 6, 6, 6, 6, 6, 6], [6, 6, 6, 6, 6, 6, 6, 6, 6, 6, 6, 6])]

/-- Resolution of the `offsets_index` / `offset_lists` parameters (source lines
61-76).  When `offset_lists` is `None`, `offsets_index or 0` selects a row of
the predefined table (a Python `IndexError` for an index past the table is the
error case of the lookup); when both parameters are given the source raises
`DWaveNetworkXException`. -/
def resolveOffsets (oIndex : Option ℕ) (oLists : Option (List ℕ × List ℕ)) :
    Except String (List ℕ × List ℕ) :=
  match oLists with
  | none =>
      match offsetTable[oIndex.getD 0]? with
      | some p => Except.ok p
      | none => Except.error "IndexError: list index out of range"
  | some ol =>
      match oIndex with
      | some _ => Except.error "provide at most one of offsets_index and offset_lists"
      | none => Except.ok ol

/-- The linear index of a Pegasus tuple, `coordinates=False` branch of `c2i`
(source line 88): `u*12*m*m1 + w*12*m1 + k*m1 + z` with `m1 = m - 1`. -/
def c2i (m u w k z : ℕ) : ℕ :=
  u * 12 * m * (m - 1) + w * 12 * (m - 1) + k * (m - 1) + z

/-- The `coordinates=True` branch of `c2i` (source line 86): the identity,
packaging the four components as a tuple. -/
def tup4 (u w k z : ℕ) : Tup := (u, w, k, z)

/-- All tuples `(u, w, k, z)` with `u < a`, `w < b`, `k < c`, `z < d`,
enumerated with `z` fastest and `u` slowest — the iteration order of the
source's nested `for` loops. -/
def tuples4 (a b c d : ℕ) : List Tup :=
  (List.range a).product ((List.range b).product ((List.range c).product (List.range d)))

/-- Intra-chain edge family (source lines 91-95): `(u,w,k,z) — (u,w,k,z+1)`
for `u ∈ {0,1}`, `w < m`, `k < 12`, `z < m1 - 1`. -/
def edgesA {α : Type} (m : ℕ) (f : ℕ → ℕ → ℕ → ℕ → α) : List (α × α) :=
  (tuples4 2 m 12 (m - 1 - 1)).map fun p =>
    (f p.1 p.2.1 p.2.2.1 p.2.2.2, f p.1 p.2.1 p.2.2.1 (p.2.2.2 + 1))

/-- Internal-pair edge family (source lines 97-101): `(u,w,2k,z) — (u,w,2k+1,z)`
for `u ∈ {0,1}`, `w < m`, `k < 6`, `z < m1`. -/
def edgesB {α : Type} (m : ℕ) (f : ℕ → ℕ → ℕ → ℕ → α) : List (α × α) :=
  (tuples4 2 m 6 (m - 1)).map fun p =>
    (f p.1 p.2.1 (2 * p.2.2.1) p.2.2.2, f p.1 p.2.1 (2 * p.2.2.1 + 1) p.2.2.2)

/-- `List.range' a (b - a)`: the integers in `[a, b)`, Python's `range(a, b)`. -/
def rangeFT (a b : ℕ) : List ℕ := List.range' a (b - a)

/-- The `k` range of the cross-orientation family (source line 107):
`range(0 if w else off1[kk], 12 if w < m1 else off1[kk])`. -/
def crossKRange (m : ℕ) (off1 : List ℕ) (w kk : ℕ) : List ℕ :=
  rangeFT (if w = 0 then off1.getD kk 0 else 0) (if w < m - 1 then 12 else off1.getD kk 0)

/-- Loop parameters `(w, kk, k, z)` of the cross-orientation family
(source lines 105-108), in source iteration order. -/
def paramsC (m : ℕ) (off1 : List ℕ) : List Tup :=
  (List.range m).flatMap fun w =>
    (List.range 12).flatMap fun kk =>
      (crossKRange m off1 w kk).flatMap fun k =>
        (List.range (m - 1)).map fun z => (w, kk, k, z)

/-- Cross-orientation edge family (source lines 103-108):
`(0,w,k,z) — (1, z + (kk < off0[k]), kk, w - (k < off1[kk]))`
over the parameters of `paramsC`. -/
def edgesC {α : Type} (m : ℕ) (f : ℕ → ℕ → ℕ → ℕ → α) (off0 off1 : List ℕ) : List (α × α) :=
  (paramsC m off1).map fun p =>
    (f 0 p.1 p.2.2.1 p.2.2.2,
     f 1 (p.2.2.2 + if p.2.1 < off0.getD p.2.2.1 0 then 1 else 0) p.2.1
       (p.1 - if p.2.2.1 < off1.getD p.2.1 0 then 1 else 0))

/-- The full synthesized edge list (the `edge_list is None` branch,
source lines 90-108), in insertion order. -/
def pegasusEdges {α : Type} (m : ℕ) (f : ℕ → ℕ → ℕ → ℕ → α) (off0 off1 : List ℕ) :
    List (α × α) :=
  edgesA m f ++ edgesB m f ++ edgesC m f off0 off1

/-- The node set induced by `add_edges_from`: all endpoints of the edges,
without duplicates (networkx registers each endpoint as a node). -/
def graphNodes {α : Type} [DecidableEq α] (edges : List (α × α)) : List α :=
  (edges.flatMap fun e => [e.1, e.2]).dedup

/-- A graph as the generator returns it: its node list and its edge list. -/
structure PGraph (α : Type) where
  nodes : List α
  edges : List (α × α)

/-- The `node_list` post-processing (source lines 113-116):
`remove_nodes_from(set(G) - nodes)` keeps only nodes of the list (dropping
incident edges), then `add_nodes_from(nodes)` adds every listed node, so the
final node set is exactly `set(node_list)`. -/
def applyNodeList {α : Type} [DecidableEq α] (G : PGraph α) (nodeList : Option (List α)) :
    PGraph α :=
  match nodeList with
  | none => G
  | some nl => ⟨nl.dedup, G.edges.filter fun e => decide (e.1 ∈ nl) && decide (e.2 ∈ nl)⟩

/-- `pegasus_graph(m, ..., node_list, edge_list, ..., offset_lists, offsets_index,
coordinates=False)` (source lines 18-116): offset resolution, edge synthesis
(or the verbatim `edge_list`), node registration, `node_list` filtering. -/
def pegasus_graph (m : ℕ) (nodeList : Option (List ℕ)) (edgeList : Option (List (ℕ × ℕ)))
    (oLists : Option (List ℕ × List ℕ)) (oIndex : Option ℕ) :
    Except String (PGraph ℕ) := do
  let offs ← resolveOffsets oIndex oLists
  let edges := match edgeList with
    | none => pegasusEdges m (c2i m) offs.1 offs.2
    | some el => el
  pure (applyNodeList ⟨graphNodes edges, edges⟩ nodeList)

/-- `pegasus_graph(..., coordinates=True)`: identical construction with the
identity labeling `tup4`. -/
def pegasus_graph_coords (m : ℕ) (nodeList : Option (List Tup))
    (edgeList : Option (List (Tup × Tup))) (oLists : Option (List ℕ × List ℕ))
    (oIndex : Option ℕ) : Except String (PGraph Tup) := do
  let offs ← resolveOffsets oIndex oLists
  let edges := match edgeList with
    | none => pegasusEdges m tup4 offs.1 offs.2
    | some el => el
  pure (applyNodeList ⟨graphNodes edges, edges⟩ nodeList)

/-- The node enumeration of the `data=True` pass (source lines 118-131): the
counter `v` walks tuples `(u, w, k, z)` with `z` fastest, so the pass pairs
each `v` with `(dataEnum m)[v]`. -/
def dataEnum (m : ℕ) : List Tup := tuples4 2 m 12 (m - 1)

/-- The `pegasus_index` assignments of the `data=True` pass under integer
labels: the association list of pairs `(v, (u,w,k,z))` for those `v` that are
nodes of the graph (source lines 129-130). -/
def dataPass (m : ℕ) (nodes : List ℕ) : List (ℕ × Tup) :=
  (dataEnum m).enum.filter fun p => decide (p.1 ∈ nodes)

/-- The `linear_index` assignments of the `data=True` pass under coordinate
labels: pairs `((u,w,k,z), v)` for tuples that are nodes (source lines 126-127). -/
def dataPassCoords (m : ℕ) (nodes : List Tup) : List (Tup × ℕ) :=
  ((dataEnum m).enum.map fun p => (p.2, p.1)).filter fun p => decide (p.1 ∈ nodes)

/-- Inverse of the linear-index formula by digit decomposition (the spec's
`linear_to_pegasus`, realized here as the explicit inverse of `c2i`). -/
def i2c (m v : ℕ) : Tup :=
  (v / (m - 1) / 12 / m, v / (m - 1) / 12 % m, v / (m - 1) % 12, v % (m - 1))

/-- Validity of a Pegasus tuple for lattice size `m`:
`u < 2`, `w < m`, `k < 12`, `z < m - 1`. -/
def ValidTup (m : ℕ) (q : Tup) : Prop :=
  q.1 < 2 ∧ q.2.1 < m ∧ q.2.2.1 < 12 ∧ q.2.2.2 < m - 1

instance (m : ℕ) (q : Tup) : Decidable (ValidTup m q) := by
  unfold ValidTup; infer_instance

/-- A well-formed offset configuration: two length-12 lists with entries
drawn from `{2, 6, 10}`. -/
def ValidOffsets (off0 off1 : List ℕ) : Prop :=
  off0.length = 12 ∧ off1.length = 12 ∧
    (∀ x ∈ off0, x = 2 ∨ x = 6 ∨ x = 10) ∧ ∀ x ∈ off1, x = 2 ∨ x = 6 ∨ x = 10

instance (off0 off1 : List ℕ) : Decidable (ValidOffsets off0 off1) := by
  unfold ValidOffsets; infer_instance

/-- Node list of a construction result (`[]` when construction failed). -/
def nodesOf {α : Type} (r : Except String (PGraph α)) : List α :=
  match r with
  | .ok G => G.nodes
  | .error _ => []

/-- Edge list of a construction result (`[]` when construction failed). -/
def edgesOf {α : Type} (r : Except String (PGraph α)) : List (α × α) :=
  match r with
  | .ok G => G.edges
  | .error _ => []

/-- Whether construction succeeded. -/
def isOkB {α : Type} (r : Except String α) : Bool :=
  match r with
  | .ok _ => true
  | .error _ => false

/-- The tuple-to-linear map on packaged tuples. -/
def t2l (m : ℕ) (q : Tup) : ℕ := c2i m q.1 q.2.1 q.2.2.1 q.2.2.2

/-! ### Basic structure lemmas -/

theorem mem_rangeFT {a b k : ℕ} : k ∈ rangeFT a b ↔ a ≤ k ∧ k < b := by
  rw [rangeFT, List.mem_range'_1]
  omega

theorem tuples4_eq_sprod (a b c d : ℕ) :
    tuples4 a b c d =
      (List.range a) ×ˢ ((List.range b) ×ˢ ((List.range c) ×ˢ (List.range d))) := rfl

theorem mem_tuples4 {a b c d : ℕ} {p : Tup} :
    p ∈ tuples4 a b c d ↔ p.1 < a ∧ p.2.1 < b ∧ p.2.2.1 < c ∧ p.2.2.2 < d := by
  obtain ⟨u, w, k, z⟩ := p
  rw [tuples4_eq_sprod]
  simp [List.mem_product, List.mem_range]

theorem nodup_tuples4 (a b c d : ℕ) : (tuples4 a b c d).Nodup := by
  rw [tuples4_eq_sprod]
  exact (List.nodup_range a).product ((List.nodup_range b).product
    ((List.nodup_range c).product (List.nodup_range d)))

theorem sprod_getElem? {α β : Type} (l₁ : List α) (l₂ : List β) (i j : ℕ) (a : α) (b : β)
    (h1 : l₁[i]? = some a) (h2 : l₂[j]? = some b) :
    (l₁ ×ˢ l₂)[i * l₂.length + j]? = some (a, b) := by
  induction l₁ generalizing i with
  | nil => simp at h1
  | cons x l ih =>
    have hj : j < l₂.length := by
      rcases List.getElem?_eq_some_iff.mp h2 with ⟨h, _⟩
      exact h
    cases i with
    | zero =>
      have hx : x = a := by simpa using h1
      subst hx
      rw [List.product_cons, Nat.zero_mul, Nat.zero_add, List.getElem?_append]
      have hcond : j < (List.map (fun b => (x, b)) l₂).length := by simpa using hj
      rw [if_pos hcond, List.getElem?_map, h2]
      rfl
    | succ i =>
      have h1' : l[i]? = some a := by simpa using h1
      rw [List.product_cons]
      have harith : (i + 1) * l₂.length + j =
          (l₂.map (fun b => (x, b))).length + (i * l₂.length + j) := by
        simp only [List.length_map]
        ring
      rw [harith, List.getElem?_append_right (Nat.le_add_right _ _), Nat.add_sub_cancel_left]
      exact ih i h1'

theorem dataEnum_getElem? {m u w k z : ℕ} (hu : u < 2) (hw : w < m) (hk : k < 12)
    (hz : z < m - 1) : (dataEnum m)[c2i m u w k z]? = some (u, w, k, z) := by
  have h3 : ((List.range 12) ×ˢ (List.range (m - 1)))[k * (m - 1) + z]? = some (k, z) := by
    have := sprod_getElem? (List.range 12) (List.range (m - 1)) k z k z
      (by simp [List.getElem?_range hk]) (by simp [List.getElem?_range hz])
    simpa [List.length_range] using this
  have h2 : ((List.range m) ×ˢ ((List.range 12) ×ˢ (List.range (m - 1))))[w * (12 * (m - 1)) + (k * (m - 1) + z)]? = some (w, k, z) := by
    have := sprod_getElem? (List.range m) ((List.range 12) ×ˢ (List.range (m - 1))) w
      (k * (m - 1) + z) w (k, z) (by simp [List.getElem?_range hw]) h3
    simpa [List.length_product, List.length_range] using this
  have h1 := sprod_getElem? (List.range 2)
    ((List.range m) ×ˢ ((List.range 12) ×ˢ (List.range (m - 1)))) u
    (w * (12 * (m - 1)) + (k * (m - 1) + z)) u (w, k, z)
    (by simp [List.getElem?_range hu]) h2
  have harith : c2i m u w k z =
      u * ((List.range m) ×ˢ ((List.range 12) ×ˢ (List.range (m - 1)))).length +
        (w * (12 * (m - 1)) + (k * (m - 1) + z)) := by
    simp only [List.length_product, List.length_range, c2i]
    ring
  rw [dataEnum, tuples4_eq_sprod, harith]
  exact h1

theorem lookup_of_nodup_keys {α β : Type} [BEq α] [LawfulBEq α] {l : List (α × β)}
    (hk : (l.map Prod.fst).Nodup) {a : α} {b : β} (h : (a, b) ∈ l) :
    List.lookup a l = some b := by
  induction l with
  | nil => simp at h
  | cons x xs ih =>
    obtain ⟨x1, x2⟩ := x
    simp only [List.map_cons, List.nodup_cons] at hk
    rcases List.mem_cons.mp h with h | h
    · have hx1 : x1 = a := (Prod.mk.injEq _ _ _ _).mp h.symm |>.1
      have hx2 : x2 = b := (Prod.mk.injEq _ _ _ _).mp h.symm |>.2
      subst hx1; subst hx2
      simp [List.lookup]
    · have hbeq : (a == x1) = false := by
        refine beq_false_of_ne ?_
        intro he
        exact hk.1 (he ▸ List.mem_map_of_mem Prod.fst h)
      rw [List.lookup_cons, hbeq]
      exact ih hk.2 h

theorem mem_graphNodes {α : Type} [DecidableEq α] {edges : List (α × α)} {v : α} :
    v ∈ graphNodes edges ↔ ∃ e ∈ edges, v = e.1 ∨ v = e.2 := by
  simp only [graphNodes, List.mem_dedup, List.mem_flatMap]
  constructor
  · rintro ⟨e, he, hv⟩
    exact ⟨e, he, by simpa using hv⟩
  · rintro ⟨e, he, hv⟩
    exact ⟨e, he, by simpa using hv⟩

theorem nodup_graphNodes {α : Type} [DecidableEq α] (edges : List (α × α)) :
    (graphNodes edges).Nodup := List.nodup_dedup _

/-! ### Mixed-radix arithmetic of the linear index -/

theorem c2i_eq (m u w k z : ℕ) : c2i m u w k z = ((u * m + w) * 12 + k) * (m - 1) + z := by
  unfold c2i
  ring

theorem mixed_div {A c B : ℕ} (hc : c < B) : (A * B + c) / B = A := by
  have hB : 0 < B := by omega
  rw [Nat.add_comm, Nat.add_mul_div_right _ _ hB, Nat.div_eq_of_lt hc, Nat.zero_add]

theorem mixed_mod {A c B : ℕ} (hc : c < B) : (A * B + c) % B = c := by
  rw [Nat.mul_comm, Nat.mul_add_mod, Nat.mod_eq_of_lt hc]

theorem i2c_c2i {m u w k z : ℕ} (hw : w < m) (hk : k < 12) (hz : z < m - 1) :
    i2c m (c2i m u w k z) = (u, w, k, z) := by
  rw [c2i_eq, i2c]
  rw [mixed_div hz, mixed_mod hz, mixed_div hk, mixed_mod hk, mixed_div hw, mixed_mod hw]

theorem c2i_lt {m u w k z : ℕ} (hu : u < 2) (hw : w < m) (hk : k < 12) (hz : z < m - 1) :
    c2i m u w k z < 24 * m * (m - 1) := by
  rw [c2i_eq]
  have h1 : (u * m + w) * 12 + k + 1 ≤ 24 * m := by nlinarith
  have h2 : ((u * m + w) * 12 + k) * (m - 1) + z < ((u * m + w) * 12 + k + 1) * (m - 1) := by
    nlinarith
  calc ((u * m + w) * 12 + k) * (m - 1) + z
      < ((u * m + w) * 12 + k + 1) * (m - 1) := h2
    _ ≤ 24 * m * (m - 1) := Nat.mul_le_mul_right _ h1

theorem c2i_inj {m u w k z u' w' k' z' : ℕ} (hw : w < m) (hk : k < 12) (hz : z < m - 1)
    (hw' : w' < m) (hk' : k' < 12) (hz' : z' < m - 1)
    (h : c2i m u w k z = c2i m u' w' k' z') : (u, w, k, z) = ((u', w', k', z') : Tup) := by
  have := congrArg (i2c m) h
  rwa [i2c_c2i hw hk hz, i2c_c2i hw' hk' hz'] at this

theorem i2c_valid {m v : ℕ} (hv : v < 24 * m * (m - 1)) :
    ValidTup m (i2c m v) ∧ t2l m (i2c m v) = v := by
  have hm : 2 ≤ m := by by_contra h; interval_cases m <;> omega
  have hm1 : 0 < m - 1 := by omega
  have hm0 : 0 < m := by omega
  set z := v % (m - 1) with hzdef
  set a := v / (m - 1) with hadef
  set k := a % 12 with hkdef
  set b := a / 12 with hbdef
  set w := b % m with hwdef
  set u := b / m with hudef
  have hz : z < m - 1 := Nat.mod_lt _ hm1
  have hk : k < 12 := Nat.mod_lt _ (by omega)
  have hw : w < m := Nat.mod_lt _ hm0
  have hb : b < 2 * m := by
    rw [hbdef, hadef, Nat.div_div_eq_div_mul]
    refine (Nat.div_lt_iff_lt_mul (by omega)).mpr ?_
    have he : 2 * m * ((m - 1) * 12) = 24 * m * (m - 1) := by ring
    omega
  have hu : u < 2 := by
    rw [hudef]
    exact (Nat.div_lt_iff_lt_mul hm0).mpr (by omega)
  have hrecon : c2i m u w k z = v := by
    rw [c2i_eq]
    have e1 : u * m + w = b := by rw [hudef, hwdef, Nat.mul_comm]; exact Nat.div_add_mod b m
    have e2 : b * 12 + k = a := by rw [hbdef, hkdef, Nat.mul_comm]; exact Nat.div_add_mod a 12
    have e3 : a * (m - 1) + z = v := by
      rw [hadef, hzdef, Nat.mul_comm]; exact Nat.div_add_mod v (m - 1)
    rw [e1, e2, e3]
  have hi2c : i2c m v = (u, w, k, z) := by
    rw [i2c]
  refine ⟨?_, ?_⟩
  · rw [hi2c]
    exact ⟨hu, hw, hk, hz⟩
  · rw [hi2c, t2l]
    exact hrecon

/-! ### Membership characterizations of the edge families -/

theorem mem_edgesA {α : Type} {m : ℕ} {f : ℕ → ℕ → ℕ → ℕ → α} {e : α × α} :
    e ∈ edgesA m f ↔ ∃ u w k z, u < 2 ∧ w < m ∧ k < 12 ∧ z < m - 1 - 1 ∧
      e = (f u w k z, f u w k (z + 1)) := by
  simp only [edgesA, List.mem_map, mem_tuples4]
  constructor
  · rintro ⟨⟨u, w, k, z⟩, ⟨hu, hw, hk, hz⟩, rfl⟩
    exact ⟨u, w, k, z, hu, hw, hk, hz, rfl⟩
  · rintro ⟨u, w, k, z, hu, hw, hk, hz, rfl⟩
    exact ⟨(u, w, k, z), ⟨hu, hw, hk, hz⟩, rfl⟩

theorem mem_edgesB {α : Type} {m : ℕ} {f : ℕ → ℕ → ℕ → ℕ → α} {e : α × α} :
    e ∈ edgesB m f ↔ ∃ u w j z, u < 2 ∧ w < m ∧ j < 6 ∧ z < m - 1 ∧
      e = (f u w (2 * j) z, f u w (2 * j + 1) z) := by
  simp only [edgesB, List.mem_map, mem_tuples4]
  constructor
  · rintro ⟨⟨u, w, j, z⟩, ⟨hu, hw, hj, hz⟩, rfl⟩
    exact ⟨u, w, j, z, hu, hw, hj, hz, rfl⟩
  · rintro ⟨u, w, j, z, hu, hw, hj, hz, rfl⟩
    exact ⟨(u, w, j, z), ⟨hu, hw, hj, hz⟩, rfl⟩

theorem mem_paramsC {m : ℕ} {off1 : List ℕ} {p : Tup} :
    p ∈ paramsC m off1 ↔ p.1 < m ∧ p.2.1 < 12 ∧
      (if p.1 = 0 then off1.getD p.2.1 0 else 0) ≤ p.2.2.1 ∧
      p.2.2.1 < (if p.1 < m - 1 then 12 else off1.getD p.2.1 0) ∧ p.2.2.2 < m - 1 := by
  obtain ⟨w, kk, k, z⟩ := p
  simp only [paramsC, crossKRange, List.mem_flatMap, List.mem_map, List.mem_range, mem_rangeFT]
  constructor
  · rintro ⟨w', hw', kk', hkk', k', ⟨hk1, hk2⟩, z', hz', h⟩
    simp only [Prod.mk.injEq] at h
    obtain ⟨rfl, rfl, rfl, rfl⟩ := h
    exact ⟨hw', hkk', hk1, hk2, hz'⟩
  · rintro ⟨hw, hkk, hk1, hk2, hz⟩
    exact ⟨w, hw, kk, hkk, k, ⟨hk1, hk2⟩, z, hz, rfl⟩

theorem mem_edgesC {α : Type} {m : ℕ} {f : ℕ → ℕ → ℕ → ℕ → α} {off0 off1 : List ℕ}
    {e : α × α} :
    e ∈ edgesC m f off0 off1 ↔ ∃ p ∈ paramsC m off1,
      e = (f 0 p.1 p.2.2.1 p.2.2.2,
        f 1 (p.2.2.2 + if p.2.1 < off0.getD p.2.2.1 0 then 1 else 0) p.2.1
          (p.1 - if p.2.2.1 < off1.getD p.2.1 0 then 1 else 0)) := by
  simp only [edgesC, List.mem_map]
  constructor
  · rintro ⟨p, hp, rfl⟩
    exact ⟨p, hp, rfl⟩
  · rintro ⟨p, hp, rfl⟩
    exact ⟨p, hp, rfl⟩

/-! ### Validity of generated endpoints -/

theorem offList_getD_bounds {off : List ℕ} (hlen : off.length = 12)
    (hmem : ∀ x ∈ off, x = 2 ∨ x = 6 ∨ x = 10) {i : ℕ} (hi : i < 12) :
    0 < off.getD i 0 ∧ off.getD i 0 ≤ 12 := by
  have hi' : i < off.length := by omega
  rw [List.getD_eq_getElem off 0 hi']
  rcases hmem _ (List.getElem_mem hi') with h | h | h <;> omega

theorem paramsC_bounds {m : ℕ} {off1 : List ℕ} (hlen : off1.length = 12)
    (hmem : ∀ x ∈ off1, x = 2 ∨ x = 6 ∨ x = 10) {p : Tup} (hp : p ∈ paramsC m off1) :
    2 ≤ m ∧ p.1 < m ∧ p.2.1 < 12 ∧ p.2.2.1 < 12 ∧ p.2.2.2 < m - 1 ∧
      (p.1 = 0 → off1.getD p.2.1 0 ≤ p.2.2.1) ∧
      (p.1 = m - 1 → p.2.2.1 < off1.getD p.2.1 0) := by
  rw [mem_paramsC] at hp
  obtain ⟨hw, hkk, h3, h4, hz⟩ := hp
  have hb := offList_getD_bounds hlen hmem hkk
  have hm : 2 ≤ m := by omega
  refine ⟨hm, hw, hkk, ?_, hz, ?_, ?_⟩
  · by_cases hcase : p.1 < m - 1
    · rw [if_pos hcase] at h4; exact h4
    · rw [if_neg hcase] at h4; omega
  · intro h0
    rw [if_pos h0] at h3
    exact h3
  · intro hlast
    have hnot : ¬p.1 < m - 1 := by omega
    rw [if_neg hnot] at h4
    exact h4

theorem edgesA_endpoints_valid {m : ℕ} {e : Tup × Tup} (he : e ∈ edgesA m tup4) :
    ValidTup m e.1 ∧ ValidTup m e.2 := by
  rw [mem_edgesA] at he
  obtain ⟨u, w, k, z, hu, hw, hk, hz, rfl⟩ := he
  simp only [tup4, ValidTup]
  exact ⟨⟨hu, hw, hk, by omega⟩, ⟨hu, hw, hk, by omega⟩⟩

theorem edgesB_endpoints_valid {m : ℕ} {e : Tup × Tup} (he : e ∈ edgesB m tup4) :
    ValidTup m e.1 ∧ ValidTup m e.2 := by
  rw [mem_edgesB] at he
  obtain ⟨u, w, j, z, hu, hw, hj, hz, rfl⟩ := he
  simp only [tup4, ValidTup]
  exact ⟨⟨hu, hw, by omega, hz⟩, ⟨hu, hw, by omega, hz⟩⟩

theorem edgesC_endpoints_valid {m : ℕ} {off0 off1 : List ℕ} (hlen : off1.length = 12)
    (hmem : ∀ x ∈ off1, x = 2 ∨ x = 6 ∨ x = 10) {e : Tup × Tup}
    (he : e ∈ edgesC m tup4 off0 off1) : ValidTup m e.1 ∧ ValidTup m e.2 := by
  rw [mem_edgesC] at he
  obtain ⟨p, hp, rfl⟩ := he
  obtain ⟨hm, hw, hkk, hk, hz, h0, hlast⟩ := paramsC_bounds hlen hmem hp
  simp only [tup4, ValidTup]
  refine ⟨⟨by omega, hw, hk, hz⟩, by omega, ?_, hkk, ?_⟩
  · split <;> omega
  · by_cases hd : p.2.2.1 < off1.getD p.2.1 0
    · rw [if_pos hd]
      omega
    · rw [if_neg hd]
      by_cases hwl : p.1 = m - 1
      · exact absurd (hlast hwl) hd
      · omega

theorem pegasusEdges_endpoints_valid {m : ℕ} {off0 off1 : List ℕ}
    (hv : ValidOffsets off0 off1) {e : Tup × Tup}
    (he : e ∈ pegasusEdges m tup4 off0 off1) : ValidTup m e.1 ∧ ValidTup m e.2 := by
  obtain ⟨-, hlen, -, hmem⟩ := hv
  rcases List.mem_append.mp he with he' | he'
  · rcases List.mem_append.mp he' with ha | hb
    · exact edgesA_endpoints_valid ha
    · exact edgesB_endpoints_valid hb
  · exact edgesC_endpoints_valid hlen hmem he'

/-- Every valid tuple is an endpoint of an internal-pair edge, hence a node of
the default graph (for `m ≥ 2`, which `z < m - 1` forces). -/
theorem cover_edgesB {m u w k z : ℕ} (hu : u < 2) (hw : w < m) (hk : k < 12)
    (hz : z < m - 1) :
    ∃ e ∈ edgesB m tup4, ((u, w, k, z) : Tup) = e.1 ∨ ((u, w, k, z) : Tup) = e.2 := by
  refine ⟨(tup4 u w (2 * (k / 2)) z, tup4 u w (2 * (k / 2) + 1) z), ?_, ?_⟩
  · rw [mem_edgesB]
    exact ⟨u, w, k / 2, z, hu, hw, by omega, hz, rfl⟩
  · rcases Nat.mod_two_eq_zero_or_one k with hpar | hpar
    · left
      have hkk : 2 * (k / 2) = k := by omega
      simp [tup4, hkk]
    · right
      have hkk : 2 * (k / 2) + 1 = k := by omega
      simp [tup4, hkk]

/-! ### The generic builder is the tuple builder relabeled -/

theorem pegasusEdges_map {α : Type} (m : ℕ) (f : ℕ → ℕ → ℕ → ℕ → α) (off0 off1 : List ℕ) :
    pegasusEdges m f off0 off1 = (pegasusEdges m tup4 off0 off1).map
      (fun e => (f e.1.1 e.1.2.1 e.1.2.2.1 e.1.2.2.2, f e.2.1 e.2.2.1 e.2.2.2.1 e.2.2.2.2)) := by
  unfold pegasusEdges edgesA edgesB edgesC
  rw [List.map_append, List.map_append, List.map_map, List.map_map, List.map_map]
  rfl

/-- The first list of offset configuration 0 (the default). -/
def off0d : List ℕ := [2, 2, 2, 2, 10, 10, 10, 10, 6, 6, 6, 6]

/-- The second list of offset configuration 0 (the default). -/
def off1d : List ℕ := [6, 6, 6, 6, 2, 2, 2, 2, 10, 10, 10, 10]

/-- The boundary `k`-range as claim C3 words it: `off1` bounds the start of the
range at `w = 0` and `off0` bounds the end of the range at `w = m-1`.  This
definition follows the claim's words (not the source) and exists only to be
compared against `crossKRange`, which the source actually uses. -/
def crossKRange_claimed (m : ℕ) (off0 off1 : List ℕ) (w kk : ℕ) : List ℕ :=
  rangeFT (if w = 0 then off1.getD kk 0 else 0) (if w < m - 1 then 12 else off0.getD kk 0)

/-! ### Claim theorems -/

/-- C5: supplying both `offsets_index` and `offset_lists` raises the
configuration error before any graph is built; supplying neither behaves
identically to `offsets_index = 0`, selecting the first predefined pair. -/
theorem C5_offset_exclusivity_and_default :
    (∀ (m : ℕ) (nl : Option (List ℕ)) (el : Option (List (ℕ × ℕ))) (i : ℕ)
        (p : List ℕ × List ℕ),
        pegasus_graph m nl el (some p) (some i) =
          Except.error "provide at most one of offsets_index and offset_lists") ∧
    (∀ (m : ℕ) (nl : Option (List ℕ)) (el : Option (List (ℕ × ℕ))),
        pegasus_graph m nl el none none = pegasus_graph m nl el none (some 0)) ∧
    resolveOffsets none none = Except.ok (off0d, off1d) := by
  exact ⟨fun m nl el i p => rfl, fun m nl el => rfl, rfl⟩

/-- C10: with an explicit `edge_list` and no `node_list`, the edges are used
verbatim and the vertex set is exactly the set of endpoints occurring in the
supplied edges; candidate tuples appearing in no supplied edge are absent. -/
theorem C10_edge_list_vertex_set (m : ℕ) (el : List (ℕ × ℕ)) :
    isOkB (pegasus_graph m none (some el) none none) = true ∧
    edgesOf (pegasus_graph m none (some el) none none) = el ∧
    ∀ v, v ∈ nodesOf (pegasus_graph m none (some el) none none) ↔
      ∃ e ∈ el, v = e.1 ∨ v = e.2 := by
  refine ⟨rfl, rfl, fun v => ?_⟩
  show v ∈ graphNodes el ↔ _
  exact mem_graphNodes

/-- C9 is refuted: a `node_list` entry far out of the valid linear range for
`m = 2` (where valid labels are `0..47`) does not make construction fail; the
out-of-range label `100` is returned as a node of the graph. -/
theorem C9_counterexample :
    isOkB (pegasus_graph 2 (some [0, 100]) none none none) = true ∧
    100 ∈ nodesOf (pegasus_graph 2 (some [0, 100]) none none none) ∧
    ¬100 < 24 * 2 * (2 - 1) := by
  exact ⟨rfl, by decide, by omega⟩

/-- C9 (amended): out-of-range labels in `node_list` are not rejected —
construction always succeeds and the resulting vertex set is exactly
`set(node_list)`, out-of-range labels included (as isolated vertices); an
explicit `edge_list` is likewise added verbatim with no range validation. -/
theorem C9_amended_overrides_unvalidated (m : ℕ) (nl : List ℕ)
    (el : Option (List (ℕ × ℕ))) :
    isOkB (pegasus_graph m (some nl) el none none) = true ∧
    (∀ v, v ∈ nodesOf (pegasus_graph m (some nl) el none none) ↔ v ∈ nl) ∧
    ∀ el' : List (ℕ × ℕ),
      edgesOf (pegasus_graph m none (some el') none none) = el' := by
  refine ⟨?_, fun v => ?_, fun el' => rfl⟩
  · cases el with
    | none => rfl
    | some el' => rfl
  · cases el with
    | none => exact List.mem_dedup
    | some el' => exact List.mem_dedup

/-- C3 is refuted: at `m = 2` with offset configuration 0, the end of the
cross-orientation `k`-range at the last tile row `w = m - 1 = 1` is bounded by
`off1[kk] = 6`, not by `off0[kk] = 2` as the claim states: `k = 3` lies in the
source's range (and yields a generated edge) but not in the claimed range. -/
theorem C3_counterexample :
    3 ∈ crossKRange 2 off1d 1 0 ∧
    3 ∉ crossKRange_claimed 2 off0d off1d 1 0 ∧
    crossKRange 2 off1d 1 0 ≠ crossKRange_claimed 2 off0d off1d 1 0 ∧
    (((0, 1, 3, 0), (1, 1, 0, 0)) : Tup × Tup) ∈
      edgesOf (pegasus_graph_coords 2 none none none none) := by
  exact ⟨by decide, by decide, by decide, by decide⟩

/-- C3 (amended): the cross-orientation `k`-range is clipped at both boundary
tile rows by the same table `off1`, indexed by the opposite-orientation slot
`kk`: at `w = 0` it is `[off1[kk], 12)` and at `w = m-1` it is `[0, off1[kk])`. -/
theorem C3_amended_boundary_clipping (m : ℕ) (off1 : List ℕ) (hm : 2 ≤ m) (kk k : ℕ) :
    (k ∈ crossKRange m off1 0 kk ↔ off1.getD kk 0 ≤ k ∧ k < 12) ∧
    (k ∈ crossKRange m off1 (m - 1) kk ↔ k < off1.getD kk 0) := by
  constructor
  · rw [crossKRange, if_pos rfl, if_pos (by omega), mem_rangeFT]
  · rw [crossKRange, if_neg (by omega), if_neg (by omega), mem_rangeFT]
    omega

/-- Witness for the amended C3 at `m = 2`, configuration 0, `kk = 0`, `k = 3`. -/
theorem C3_amended_boundary_clipping_witness :
    2 ≤ 2 ∧ ((3 ∈ crossKRange 2 off1d 0 0 ↔ off1d.getD 0 0 ≤ 3 ∧ 3 < 12) ∧
      (3 ∈ crossKRange 2 off1d (2 - 1) 0 ↔ 3 < off1d.getD 0 0)) :=
  ⟨by decide, C3_amended_boundary_clipping 2 off1d (by decide) 0 3⟩

/-- C4: under any well-formed offset configuration, every endpoint generated by
the cross-orientation family is a valid lattice tuple; in particular the
opposite-orientation tuple `(1, z + [kk < off0[k]], kk, w - [k < off1[kk]])`
has its second component in `[0, m)` and its fourth component in `[0, m-1)`,
the latter shown in `ℤ` so that the boundary clipping is also seen to prevent
underflow of `w - [k < off1[kk]]`. -/
theorem C4_no_out_of_lattice (m : ℕ) (off0 off1 : List ℕ) (hv : ValidOffsets off0 off1) :
    (∀ e ∈ edgesC m tup4 off0 off1, ValidTup m e.1 ∧ ValidTup m e.2) ∧
    ∀ p ∈ paramsC m off1,
      p.2.2.2 + (if p.2.1 < off0.getD p.2.2.1 0 then 1 else 0) < m ∧
      (0 : ℤ) ≤ (p.1 : ℤ) - (if p.2.2.1 < off1.getD p.2.1 0 then 1 else 0) ∧
      (p.1 : ℤ) - (if p.2.2.1 < off1.getD p.2.1 0 then 1 else 0) < (m : ℤ) - 1 := by
  obtain ⟨-, hlen, -, hmem⟩ := hv
  refine ⟨fun e he => edgesC_endpoints_valid hlen hmem he, fun p hp => ?_⟩
  obtain ⟨hm, hw, hkk, hk, hz, h0, hlast⟩ := paramsC_bounds hlen hmem hp
  refine ⟨by split <;> omega, ?_, ?_⟩
  · by_cases hd : p.2.2.1 < off1.getD p.2.1 0
    · rw [if_pos hd]
      have hne : p.1 ≠ 0 := by
        intro h
        have := h0 h
        omega
      omega
    · rw [if_neg hd]
      omega
  · by_cases hd : p.2.2.1 < off1.getD p.2.1 0
    · rw [if_pos hd]
      omega
    · rw [if_neg hd]
      have hne : p.1 ≠ m - 1 := by
        intro h
        exact absurd (hlast h) hd
      omega

/-- Witness for C4 at `m = 2`, configuration 0, on the generated edge
`((0,0,6,0), (1,1,0,0))`. -/
theorem C4_no_out_of_lattice_witness :
    ValidOffsets off0d off1d ∧ ValidTup 2 (0, 0, 6, 0) ∧ ValidTup 2 (1, 1, 0, 0) := by
  refine ⟨by decide, ?_⟩
  have h := (C4_no_out_of_lattice 2 off0d off1d (by decide)).1
    (((0, 0, 6, 0), (1, 1, 0, 0)) : Tup × Tup) (by decide)
  exact h

theorem mem_nodes_lin {m : ℕ} {off0 off1 : List ℕ} (hv : ValidOffsets off0 off1) (v : ℕ) :
    v ∈ graphNodes (pegasusEdges m (c2i m) off0 off1) ↔
      ∃ q : Tup, ValidTup m q ∧ t2l m q = v := by
  rw [mem_graphNodes, pegasusEdges_map m (c2i m) off0 off1]
  constructor
  · rintro ⟨e, he, hor⟩
    rw [List.mem_map] at he
    obtain ⟨e', he', rfl⟩ := he
    obtain ⟨h1, h2⟩ := pegasusEdges_endpoints_valid hv he'
    rcases hor with h | h
    · exact ⟨e'.1, h1, h.symm⟩
    · exact ⟨e'.2, h2, h.symm⟩
  · rintro ⟨q, hq, rfl⟩
    obtain ⟨h1, h2, h3, h4⟩ := hq
    obtain ⟨e', he', hor⟩ := cover_edgesB h1 h2 h3 h4
    refine ⟨(t2l m e'.1, t2l m e'.2), ?_, ?_⟩
    · rw [List.mem_map]
      exact ⟨e', List.mem_append_left _ (List.mem_append_right _ he'), rfl⟩
    · rcases hor with h | h
      · left
        exact congrArg (t2l m) h
      · right
        exact congrArg (t2l m) h

/-- C2: for `m ≥ 2`, the default graph's vertex set is exactly
`{0, ..., 24*m*(m-1) - 1}`: no duplicates, membership is exactly the valid
linear range, and the vertex count equals the count of valid 4-tuples. -/
theorem C2_vertex_bijectivity (m : ℕ) (hm : 2 ≤ m) :
    (nodesOf (pegasus_graph m none none none none)).Nodup ∧
    (∀ v, v ∈ nodesOf (pegasus_graph m none none none none) ↔ v < 24 * m * (m - 1)) ∧
    (nodesOf (pegasus_graph m none none none none)).length = 24 * m * (m - 1) := by
  have hvo : ValidOffsets off0d off1d := by decide
  have hnodup : (nodesOf (pegasus_graph m none none none none)).Nodup :=
    nodup_graphNodes _
  have hmem : ∀ v, v ∈ nodesOf (pegasus_graph m none none none none) ↔
      v < 24 * m * (m - 1) := by
    intro v
    show v ∈ graphNodes (pegasusEdges m (c2i m) off0d off1d) ↔ _
    rw [mem_nodes_lin hvo]
    constructor
    · rintro ⟨q, hq, rfl⟩
      exact c2i_lt hq.1 hq.2.1 hq.2.2.1 hq.2.2.2
    · intro hvlt
      obtain ⟨hq, hqe⟩ := i2c_valid hvlt
      exact ⟨i2c m v, hq, hqe⟩
  refine ⟨hnodup, hmem, ?_⟩
  have hperm : List.Perm (nodesOf (pegasus_graph m none none none none))
      (List.range (24 * m * (m - 1))) :=
    (List.perm_ext_iff_of_nodup hnodup (List.nodup_range _)).mpr fun v => by
      rw [List.mem_range]
      exact hmem v
  simpa using hperm.length_eq

/-- Witness for C2 at `m = 2`. -/
theorem C2_vertex_bijectivity_witness :
    2 ≤ 2 ∧
    ((nodesOf (pegasus_graph 2 none none none none)).Nodup ∧
      (∀ v, v ∈ nodesOf (pegasus_graph 2 none none none none) ↔ v < 24 * 2 * (2 - 1)) ∧
      (nodesOf (pegasus_graph 2 none none none none)).length = 24 * 2 * (2 - 1)) :=
  ⟨by decide, C2_vertex_bijectivity 2 (by decide)⟩

/-- C6: for `m ≥ 2` and any chain `(u, w, k)` in range and any offset
configuration, the generated edge set contains the undirected edge between
`(u,w,k,z)` and `(u,w,k,z+1)` exactly when `z < m - 2`; no intra-chain edge
exists outside that range. -/
theorem C6_intra_chain (m u w k z : ℕ) (hm : 2 ≤ m) (hu : u < 2) (hw : w < m)
    (hk : k < 12) (off0 off1 : List ℕ) :
    ((((u, w, k, z), (u, w, k, z + 1)) : Tup × Tup) ∈
        edgesOf (pegasus_graph_coords m none none (some (off0, off1)) none) ∨
      (((u, w, k, z + 1), (u, w, k, z)) : Tup × Tup) ∈
        edgesOf (pegasus_graph_coords m none none (some (off0, off1)) none)) ↔
      z < m - 2 := by
  show (_ ∈ pegasusEdges m tup4 off0 off1 ∨ _ ∈ pegasusEdges m tup4 off0 off1) ↔ _
  constructor
  · rintro (h | h) <;>
      rcases List.mem_append.mp h with h' | hC
    · rcases List.mem_append.mp h' with hA | hB
      · rw [mem_edgesA] at hA
        obtain ⟨u', w', k', z', hu', hw', hk', hz', heq⟩ := hA
        simp only [tup4, Prod.mk.injEq] at heq
        omega
      · rw [mem_edgesB] at hB
        obtain ⟨u', w', j', z', hu', hw', hj', hz', heq⟩ := hB
        simp only [tup4, Prod.mk.injEq] at heq
        omega
    · rw [mem_edgesC] at hC
      obtain ⟨p, hp, heq⟩ := hC
      simp only [tup4, Prod.mk.injEq] at heq
      omega
    · rcases List.mem_append.mp h' with hA | hB
      · rw [mem_edgesA] at hA
        obtain ⟨u', w', k', z', hu', hw', hk', hz', heq⟩ := hA
        simp only [tup4, Prod.mk.injEq] at heq
        omega
      · rw [mem_edgesB] at hB
        obtain ⟨u', w', j', z', hu', hw', hj', hz', heq⟩ := hB
        simp only [tup4, Prod.mk.injEq] at heq
        omega
    · rw [mem_edgesC] at hC
      obtain ⟨p, hp, heq⟩ := hC
      simp only [tup4, Prod.mk.injEq] at heq
      omega
  · intro hz
    left
    refine List.mem_append_left _ (List.mem_append_left _ ?_)
    rw [mem_edgesA]
    exact ⟨u, w, k, z, hu, hw, hk, by omega, rfl⟩

/-- Witness for C6 at `m = 3`, chain `(0,0,0)`, `z = 0`, configuration 0. -/
theorem C6_intra_chain_witness :
    2 ≤ 3 ∧ (0 : ℕ) < 2 ∧ (0 : ℕ) < 3 ∧ (0 : ℕ) < 12 ∧
    (((((0, 0, 0, 0), (0, 0, 0, 1)) : Tup × Tup) ∈
        edgesOf (pegasus_graph_coords 3 none none (some (off0d, off1d)) none) ∨
      ((((0, 0, 0, 1), (0, 0, 0, 0)) : Tup × Tup) ∈
        edgesOf (pegasus_graph_coords 3 none none (some (off0d, off1d)) none))) ↔
      0 < 3 - 2) :=
  ⟨by decide, by decide, by decide, by decide,
    C6_intra_chain 3 0 0 0 0 (by decide) (by decide) (by decide) (by decide) off0d off1d⟩

theorem mem_nodes_tup {m : ℕ} {off0 off1 : List ℕ} (hv : ValidOffsets off0 off1) (q : Tup) :
    q ∈ graphNodes (pegasusEdges m tup4 off0 off1) ↔ ValidTup m q := by
  rw [mem_graphNodes]
  constructor
  · rintro ⟨e, he, rfl | rfl⟩
    · exact (pegasusEdges_endpoints_valid hv he).1
    · exact (pegasusEdges_endpoints_valid hv he).2
  · intro hq
    obtain ⟨h1, h2, h3, h4⟩ := hq
    obtain ⟨e, he, hor⟩ := cover_edgesB h1 h2 h3 h4
    exact ⟨e, List.mem_append_left _ (List.mem_append_right _ he), hor⟩

/-- C8: the coordinate-labeled graph and the integer-labeled graph are related
by the tuple-to-linear bijection and nothing else: the integer edge list is the
image of the tuple edge list under `t2l`, a vertex is an integer node exactly
when it is the `t2l`-image of a tuple node, and `t2l` is injective on the tuple
nodes. -/
theorem C8_coordinate_relabeling (m : ℕ) (hm : 1 ≤ m) (off0 off1 : List ℕ)
    (hv : ValidOffsets off0 off1) :
    edgesOf (pegasus_graph m none none (some (off0, off1)) none) =
      (edgesOf (pegasus_graph_coords m none none (some (off0, off1)) none)).map
        (fun e => (t2l m e.1, t2l m e.2)) ∧
    (∀ v, v ∈ nodesOf (pegasus_graph m none none (some (off0, off1)) none) ↔
      ∃ q ∈ nodesOf (pegasus_graph_coords m none none (some (off0, off1)) none),
        t2l m q = v) ∧
    ∀ q ∈ nodesOf (pegasus_graph_coords m none none (some (off0, off1)) none),
      ∀ q' ∈ nodesOf (pegasus_graph_coords m none none (some (off0, off1)) none),
        t2l m q = t2l m q' → q = q' := by
  refine ⟨?_, ?_, ?_⟩
  · exact pegasusEdges_map m (c2i m) off0 off1
  · intro v
    show v ∈ graphNodes (pegasusEdges m (c2i m) off0 off1) ↔
      ∃ q ∈ graphNodes (pegasusEdges m tup4 off0 off1), t2l m q = v
    rw [mem_nodes_lin hv]
    constructor
    · rintro ⟨q, hq, rfl⟩
      exact ⟨q, (mem_nodes_tup hv q).mpr hq, rfl⟩
    · rintro ⟨q, hq, rfl⟩
      exact ⟨q, (mem_nodes_tup hv q).mp hq, rfl⟩
  · intro q hq q' hq' h
    have h1 := (mem_nodes_tup hv q).mp hq
    have h2 := (mem_nodes_tup hv q').mp hq'
    exact c2i_inj h1.2.1 h1.2.2.1 h1.2.2.2 h2.2.1 h2.2.2.1 h2.2.2.2 h

/-- Witness for C8 at `m = 2`, configuration 0. -/
theorem C8_coordinate_relabeling_witness :
    1 ≤ 2 ∧ ValidOffsets off0d off1d ∧
    (edgesOf (pegasus_graph 2 none none (some (off0d, off1d)) none) =
      (edgesOf (pegasus_graph_coords 2 none none (some (off0d, off1d)) none)).map
        (fun e => (t2l 2 e.1, t2l 2 e.2)) ∧
    (∀ v, v ∈ nodesOf (pegasus_graph 2 none none (some (off0d, off1d)) none) ↔
      ∃ q ∈ nodesOf (pegasus_graph_coords 2 none none (some (off0d, off1d)) none),
        t2l 2 q = v) ∧
    ∀ q ∈ nodesOf (pegasus_graph_coords 2 none none (some (off0d, off1d)) none),
      ∀ q' ∈ nodesOf (pegasus_graph_coords 2 none none (some (off0d, off1d)) none),
        t2l 2 q = t2l 2 q' → q = q') :=
  ⟨by decide, by decide, C8_coordinate_relabeling 2 (by decide) off0d off1d (by decide)⟩

theorem dataPass_keys_nodup (m : ℕ) (nodes : List ℕ) :
    ((dataPass m nodes).map Prod.fst).Nodup := by
  have hsub : (dataPass m nodes).Sublist (dataEnum m).enum := List.filter_sublist _
  have hsub2 := hsub.map Prod.fst
  rw [List.enum_map_fst] at hsub2
  exact (List.nodup_range _).sublist hsub2

theorem dataPassCoords_keys_nodup (m : ℕ) (nodes : List Tup) :
    ((dataPassCoords m nodes).map Prod.fst).Nodup := by
  have hsub : (dataPassCoords m nodes).Sublist
      ((dataEnum m).enum.map fun p => (p.2, p.1)) := List.filter_sublist _
  have hsub2 := hsub.map Prod.fst
  have heq : (((dataEnum m).enum.map fun p => (p.2, p.1)).map Prod.fst) = dataEnum m := by
    rw [List.map_map]
    exact List.enum_map_snd _
  rw [heq] at hsub2
  have hnd : (dataEnum m).Nodup := nodup_tuples4 2 m 12 (m - 1)
  exact hnd.sublist hsub2

/-- C1: round-trip law between linear and Pegasus-tuple labels.  For every
valid tuple `(u,w,k,z)` with linear index `v = c2i m u w k z`, the `data=True`
pass of the integer-labeled default graph attaches exactly `(u,w,k,z)` as the
`pegasus_index` of node `v`, and the pass of the coordinate-labeled default
graph attaches exactly `v` as the `linear_index` of node `(u,w,k,z)`. -/
theorem C1_data_roundtrip (m u w k z : ℕ) (hu : u < 2) (hw : w < m) (hk : k < 12)
    (hz : z < m - 1) :
    List.lookup (c2i m u w k z)
        (dataPass m (nodesOf (pegasus_graph m none none none none))) =
      some (u, w, k, z) ∧
    List.lookup ((u, w, k, z) : Tup)
        (dataPassCoords m (nodesOf (pegasus_graph_coords m none none none none))) =
      some (c2i m u w k z) := by
  have hvo : ValidOffsets off0d off1d := by decide
  have henum : ((c2i m u w k z, (u, w, k, z)) : ℕ × Tup) ∈ (dataEnum m).enum :=
    List.mk_mem_enum_iff_getElem?.mpr (dataEnum_getElem? hu hw hk hz)
  constructor
  · have hvnode : c2i m u w k z ∈ nodesOf (pegasus_graph m none none none none) := by
      show c2i m u w k z ∈ graphNodes (pegasusEdges m (c2i m) off0d off1d)
      exact (mem_nodes_lin hvo _).mpr ⟨(u, w, k, z), ⟨hu, hw, hk, hz⟩, rfl⟩
    have hmem : ((c2i m u w k z, (u, w, k, z)) : ℕ × Tup) ∈
        dataPass m (nodesOf (pegasus_graph m none none none none)) :=
      List.mem_filter.mpr ⟨henum, by simpa using hvnode⟩
    exact lookup_of_nodup_keys (dataPass_keys_nodup m _) hmem
  · have hqnode : ((u, w, k, z) : Tup) ∈
        nodesOf (pegasus_graph_coords m none none none none) := by
      show ((u, w, k, z) : Tup) ∈ graphNodes (pegasusEdges m tup4 off0d off1d)
      exact (mem_nodes_tup hvo _).mpr ⟨hu, hw, hk, hz⟩
    have hmem : ((((u, w, k, z) : Tup), c2i m u w k z) : Tup × ℕ) ∈
        dataPassCoords m (nodesOf (pegasus_graph_coords m none none none none)) :=
      List.mem_filter.mpr
        ⟨List.mem_map.mpr ⟨(c2i m u w k z, (u, w, k, z)), henum, rfl⟩,
          by simpa using hqnode⟩
    exact lookup_of_nodup_keys (dataPassCoords_keys_nodup m _) hmem

/-- Witness for C1 at `m = 2`, tuple `(1,1,7,0)`, linear index `43`. -/
theorem C1_data_roundtrip_witness :
    (1 : ℕ) < 2 ∧ (1 : ℕ) < 2 ∧ (7 : ℕ) < 12 ∧ (0 : ℕ) < 2 - 1 ∧
    (List.lookup (c2i 2 1 1 7 0)
        (dataPass 2 (nodesOf (pegasus_graph 2 none none none none))) =
      some (1, 1, 7, 0) ∧
    List.lookup ((1, 1, 7, 0) : Tup)
        (dataPassCoords 2 (nodesOf (pegasus_graph_coords 2 none none none none))) =
      some (c2i 2 1 1 7 0)) :=
  ⟨by decide, by decide, by decide, by decide,
    C1_data_roundtrip 2 1 1 7 0 (by decide) (by decide) (by decide) (by decide)⟩

/-! ### No duplicate undirected edges -/

theorem nodup_paramsC (m : ℕ) (off1 : List ℕ) : (paramsC m off1).Nodup := by
  rw [paramsC, List.nodup_flatMap]
  refine ⟨fun w hw => ?_, ?_⟩
  · rw [List.nodup_flatMap]
    refine ⟨fun kk hkk => ?_, ?_⟩
    · rw [List.nodup_flatMap]
      refine ⟨fun k hk => ?_, ?_⟩
      · refine (List.nodup_range _).map ?_
        intro z z' h
        simpa using h
      · have hnd : (crossKRange m off1 w kk).Nodup := by
          rw [crossKRange, rangeFT]
          simp [List.nodup_range']
        refine List.Pairwise.imp ?_ hnd
        intro k k' hne x hx hx'
        simp only [List.mem_map, List.mem_range] at hx hx'
        obtain ⟨z, hz, rfl⟩ := hx
        obtain ⟨z', hz', h⟩ := hx'
        simp only [Prod.mk.injEq] at h
        omega
    · refine List.Pairwise.imp ?_ (List.nodup_range 12)
      intro kk kk' hne x hx hx'
      simp only [List.mem_flatMap, List.mem_map, List.mem_range] at hx hx'
      obtain ⟨k, hk, z, hz, rfl⟩ := hx
      obtain ⟨k', hk', z', hz', h⟩ := hx'
      simp only [Prod.mk.injEq] at h
      omega
  · refine List.Pairwise.imp ?_ (List.nodup_range m)
    intro w w' hne x hx hx'
    simp only [List.mem_flatMap, List.mem_map, List.mem_range] at hx hx'
    obtain ⟨kk, hkk, k, hk, z, hz, rfl⟩ := hx
    obtain ⟨kk', hkk', k', hk', z', hz', h⟩ := hx'
    simp only [Prod.mk.injEq] at h
    omega

theorem pairwise_edgesA (m : ℕ) :
    (edgesA m tup4).Pairwise fun e f => e ≠ f ∧ e ≠ (f.2, f.1) := by
  rw [edgesA, List.pairwise_map]
  refine List.Pairwise.imp ?_ (nodup_tuples4 2 m 12 (m - 1 - 1))
  rintro ⟨u, w, k, z⟩ ⟨u', w', k', z'⟩ hne
  constructor
  · intro h
    simp only [tup4, Prod.mk.injEq] at h
    obtain ⟨⟨h1, h2, h3, h4⟩, -⟩ := h
    subst h1; subst h2; subst h3; subst h4
    exact hne rfl
  · intro h
    simp only [tup4, Prod.mk.injEq] at h
    omega

theorem pairwise_edgesB (m : ℕ) :
    (edgesB m tup4).Pairwise fun e f => e ≠ f ∧ e ≠ (f.2, f.1) := by
  rw [edgesB, List.pairwise_map]
  refine List.Pairwise.imp ?_ (nodup_tuples4 2 m 6 (m - 1))
  rintro ⟨u, w, j, z⟩ ⟨u', w', j', z'⟩ hne
  constructor
  · intro h
    simp only [tup4, Prod.mk.injEq] at h
    obtain ⟨⟨h1, h2, h3, h4⟩, -⟩ := h
    have h3' : j = j' := by omega
    subst h1; subst h2; subst h3'; subst h4
    exact hne rfl
  · intro h
    simp only [tup4, Prod.mk.injEq] at h
    omega

theorem pairwise_edgesC (m : ℕ) (off0 off1 : List ℕ) :
    (edgesC m tup4 off0 off1).Pairwise fun e f => e ≠ f ∧ e ≠ (f.2, f.1) := by
  rw [edgesC, List.pairwise_map]
  refine List.Pairwise.imp ?_ (nodup_paramsC m off1)
  rintro ⟨w, kk, k, z⟩ ⟨w', kk', k', z'⟩ hne
  constructor
  · intro h
    simp only [tup4, Prod.mk.injEq] at h
    obtain ⟨⟨-, h2, h3, h4⟩, -, -, h7, -⟩ := h
    subst h2; subst h3; subst h4; subst h7
    exact hne rfl
  · intro h
    simp only [tup4, Prod.mk.injEq] at h
    omega

/-- No two entries of the synthesized tuple edge list represent the same
undirected edge, within or across the three families. -/
theorem pairwise_diff_tup (m : ℕ) (off0 off1 : List ℕ) :
    (pegasusEdges m tup4 off0 off1).Pairwise fun e f => e ≠ f ∧ e ≠ (f.2, f.1) := by
  rw [pegasusEdges, List.pairwise_append, List.pairwise_append]
  refine ⟨⟨pairwise_edgesA m, pairwise_edgesB m, ?_⟩, pairwise_edgesC m off0 off1, ?_⟩
  · intro a ha b hb
    rw [mem_edgesA] at ha
    rw [mem_edgesB] at hb
    obtain ⟨u, w, k, z, -, -, -, -, rfl⟩ := ha
    obtain ⟨u', w', j', z', -, -, -, -, rfl⟩ := hb
    constructor
    · intro h
      simp only [tup4, Prod.mk.injEq] at h
      omega
    · intro h
      simp only [tup4, Prod.mk.injEq] at h
      omega
  · intro a ha b hb
    rw [mem_edgesC] at hb
    obtain ⟨p, -, rfl⟩ := hb
    rcases List.mem_append.mp ha with ha' | ha'
    · rw [mem_edgesA] at ha'
      obtain ⟨u, w, k, z, -, -, -, -, rfl⟩ := ha'
      constructor
      · intro h
        simp only [tup4, Prod.mk.injEq] at h
        omega
      · intro h
        simp only [tup4, Prod.mk.injEq] at h
        omega
    · rw [mem_edgesB] at ha'
      obtain ⟨u, w, j, z, -, -, -, -, rfl⟩ := ha'
      constructor
      · intro h
        simp only [tup4, Prod.mk.injEq] at h
        omega
      · intro h
        simp only [tup4, Prod.mk.injEq] at h
        omega

theorem t2l_inj {m : ℕ} {q q' : Tup} (h1 : ValidTup m q) (h2 : ValidTup m q')
    (h : t2l m q = t2l m q') : q = q' :=
  c2i_inj h1.2.1 h1.2.2.1 h1.2.2.2 h2.2.1 h2.2.2.1 h2.2.2.2 h

theorem tup_edge_no_loop {m : ℕ} {off0 off1 : List ℕ} {e : Tup × Tup}
    (he : e ∈ pegasusEdges m tup4 off0 off1) : e.1 ≠ e.2 := by
  rcases List.mem_append.mp he with he' | hC
  · rcases List.mem_append.mp he' with hA | hB
    · rw [mem_edgesA] at hA
      obtain ⟨u, w, k, z, -, -, -, -, rfl⟩ := hA
      intro h
      simp only [tup4, Prod.mk.injEq] at h
      omega
    · rw [mem_edgesB] at hB
      obtain ⟨u, w, j, z, -, -, -, -, rfl⟩ := hB
      intro h
      simp only [tup4, Prod.mk.injEq] at h
      omega
  · rw [mem_edgesC] at hC
    obtain ⟨p, -, rfl⟩ := hC
    intro h
    simp only [tup4, Prod.mk.injEq] at h
    omega

/-- C7: for every `m ≥ 1` and every well-formed offset configuration, the
default-generated graph has no self-loops, no duplicate undirected edges
(each unordered pair occurs at most once across all three families), and every
edge endpoint is a member of the vertex set. -/
theorem C7_edge_wellformedness (m : ℕ) (hm : 1 ≤ m) (off0 off1 : List ℕ)
    (hv : ValidOffsets off0 off1) :
    (∀ e ∈ edgesOf (pegasus_graph m none none (some (off0, off1)) none), e.1 ≠ e.2) ∧
    (edgesOf (pegasus_graph m none none (some (off0, off1)) none)).Pairwise
      (fun e f => e ≠ f ∧ e ≠ (f.2, f.1)) ∧
    ∀ e ∈ edgesOf (pegasus_graph m none none (some (off0, off1)) none),
      e.1 ∈ nodesOf (pegasus_graph m none none (some (off0, off1)) none) ∧
      e.2 ∈ nodesOf (pegasus_graph m none none (some (off0, off1)) none) := by
  refine ⟨?_, ?_, ?_⟩
  · intro e he
    show e.1 ≠ e.2
    have he' : e ∈ pegasusEdges m (c2i m) off0 off1 := he
    rw [pegasusEdges_map m (c2i m) off0 off1, List.mem_map] at he'
    obtain ⟨f, hf, rfl⟩ := he'
    obtain ⟨hv1, hv2⟩ := pegasusEdges_endpoints_valid hv hf
    intro h
    exact tup_edge_no_loop hf (t2l_inj hv1 hv2 h)
  · show (pegasusEdges m (c2i m) off0 off1).Pairwise _
    rw [pegasusEdges_map m (c2i m) off0 off1, List.pairwise_map]
    refine List.Pairwise.imp_of_mem ?_ (pairwise_diff_tup m off0 off1)
    intro e f he hf hd
    obtain ⟨he1, he2⟩ := pegasusEdges_endpoints_valid hv he
    obtain ⟨hf1, hf2⟩ := pegasusEdges_endpoints_valid hv hf
    constructor
    · intro h
      simp only [Prod.mk.injEq] at h
      exact hd.1 (Prod.ext (t2l_inj he1 hf1 h.1) (t2l_inj he2 hf2 h.2))
    · intro h
      simp only [Prod.mk.injEq] at h
      exact hd.2 (Prod.ext (t2l_inj he1 hf2 h.1) (t2l_inj he2 hf1 h.2))
  · intro e he
    constructor
    · exact mem_graphNodes.mpr ⟨e, he, Or.inl rfl⟩
    · exact mem_graphNodes.mpr ⟨e, he, Or.inr rfl⟩

/-- Witness for C7 at `m = 2`, configuration 0. -/
theorem C7_edge_wellformedness_witness :
    1 ≤ 2 ∧ ValidOffsets off0d off1d ∧
    ((∀ e ∈ edgesOf (pegasus_graph 2 none none (some (off0d, off1d)) none), e.1 ≠ e.2) ∧
    (edgesOf (pegasus_graph 2 none none (some (off0d, off1d)) none)).Pairwise
      (fun e f => e ≠ f ∧ e ≠ (f.2, f.1)) ∧
    ∀ e ∈ edgesOf (pegasus_graph 2 none none (some (off0d, off1d)) none),
      e.1 ∈ nodesOf (pegasus_graph 2 none none (some (off0d, off1d)) none) ∧
      e.2 ∈ nodesOf (pegasus_graph 2 none none (some (off0d, off1d)) none)) :=
  ⟨by decide, by decide, C7_edge_wellformedness 2 (by decide) off0d off1d (by decide)⟩

end PegasusSpec
